import Mathlib

/-
Verification of the IO.js asynchronous action combinator library
(srikumarks/IO.js, canonical source file modelled here as "part_000").

The library represents computations as continuation-passing actions
`Action(M, input, success, failure)`.  We give a shallow embedding:
the combinator kernel is embedded as a deep syntax of actions `Act`
evaluated by a fuel-indexed interpreter `exec` that records a trace of
observable invocations, and the stateful combinators (`atomic`, `chan`,
`sync`, `gen`, `fork`, `interruptible`, the orchestrator depth counter)
are embedded as explicit state-transition functions mirroring the
closure state of the source.
-/

namespace IOJS

/-- Outcome of one invocation of an opaque user action (the shapes
produced by `wrapFn`): return a value (success continuation receives it),
throw (failure continuation receives the raw error), or return
`undefined` (the sequence stops). -/
inductive PrimRes (α : Type) where
  | succeed (v : α)
  | failWith (e : α)
  | stop

mutual

/-- Internal actions `function (M, input, success, failure)`.  Each
constructor mirrors one combinator of the source; `prim` is an opaque
user action whose invocations are recorded in the trace. -/
inductive Act (α : Type) where
  | drain
  | passA
  | failA
  | prim (name : Nat) (k : α → PrimRes α)
  | raiseA (e : α)
  | supplyA (v : α)
  | seqA (a b : Act α)
  | branchA (a s f : Act α)
  | tryA (a onfail : Act α)
  | catchA (onfail : Act α)
  | withRestartA (ra rs rf : Act α) (onfail : Act α)
  | chainIterA (as : ActList α) (i : Nat) (success : Act α)
  | chainA (as : ActList α)
  | forgiveA
  | resumeWith (v : α)

/-- Lists of actions (spelled out so the mutual block stays plain). -/
inductive ActList (α : Type) where
  | nil
  | cons (a : Act α) (rest : ActList α)

/-- Values flowing through continuations: `undefined`, an ordinary
payload, or an `IOError` object. -/
inductive Val (α : Type) where
  | undef
  | base (a : α)
  | err (e : IOErr α)

/-- The `IOError` value: error payload, the input present at the raise
point, the captured `success`/`failure` continuations, and the
`restart` callback attached by `catch` (absent until `sendKV` adds it). -/
inductive IOErr (α : Type) where
  | mk (error : α) (input : Val α) (success : Act α) (failure : Act α)
      (restart : RestartInfo α)

/-- The `restart` callback stored on an IOError by `catch`:
`autobranch(M, catch_, start, traceback)`, recorded as the action to
call together with the two continuations to call it with. -/
inductive RestartInfo (α : Type) where
  | noneR
  | mk (ra rs rf : Act α)

end

namespace ActList

def length : ActList α → Nat
  | .nil => 0
  | .cons _ rest => 1 + rest.length

def get? : ActList α → Nat → Option (Act α)
  | .nil, _ => none
  | .cons a _, 0 => some a
  | .cons _ rest, n + 1 => rest.get? n

end ActList

/-- Projection used when an opaque user function inspects its input:
a plain payload is itself, an IOError shows its `error` field
(the discrimination a catch handler performs), `undefined` has none. -/
def Val.key : Val α → Option α
  | .undef => none
  | .base a => some a
  | .err (.mk e _ _ _ _) => some e

/-- `sendKV({restart: cb}, _)` mutates its input object, attaching the
restart callback; on a non-object input nothing usable is attached. -/
def setRestart : Val α → Act α → Act α → Act α → Val α
  | .err (.mk e inp su fa _), ra, rs, rf => .err (.mk e inp su fa (.mk ra rs rf))
  | v, _, _, _ => v

/-- One observable event: a `prim` action was invoked with an input. -/
inductive Event (α : Type) where
  | called (name : Nat) (input : Val α)

/-- Fuel-indexed evaluator mirroring `M.call` dispatch (the trampoline
depth bookkeeping is modelled separately; here every `M.call` costs one
unit of fuel).  Produces the trace of `prim` invocations. -/
def exec : Nat → Act α → Val α → Act α → Act α → List (Event α)
  | 0, _, _, _, _ => []
  | n + 1, a, input, s, f =>
    match a with
    | .drain => []
    | .passA => exec n s input .drain f
    | .failA => exec n f input .drain .drain
    | .prim name k =>
      .called name input ::
        match input.key with
        | none => []
        | some x =>
          match k x with
          | .succeed v => exec n s (.base v) .drain f
          | .failWith e => exec n f (.base e) .drain .drain
          | .stop => []
    | .raiseA e => exec n f (.err (.mk e input s f .noneR)) .drain .drain
    | .supplyA v => exec n s (.base v) .drain f
    | .seqA a b => exec n a input (.seqA b s) f
    | .branchA a s2 f2 => exec n a input s2 f2
    | .tryA a onfail => exec n a input s (.branchA onfail s f)
    | .catchA onfail =>
      exec n s input .drain
        (.branchA (.withRestartA (.catchA onfail) s f onfail)
          (.branchA (.catchA onfail) s f) f)
    | .withRestartA ra rs rf onfail => exec n onfail (setRestart input ra rs rf) s f
    | .chainIterA as i success =>
      match as.get? i with
      | some a => exec n a input (.chainIterA as (i + 1) success) f
      | none => exec n success input s f
    | .chainA as =>
      match as with
      | .nil => exec n s input .drain f
      | .cons a .nil => exec n a input s f
      | _ => exec n (.chainIterA as 0 s) input .drain f
    | .forgiveA =>
      match input with
      | .err (.mk _ inp _ _ _) => exec n s inp .drain f
      | _ => exec n s .undef .drain f
    | .resumeWith v =>
      match input with
      | .err (.mk _ _ su fa _) => exec n su (.base v) .drain fa
      | _ => []

end IOJS

namespace IOJS

/-! Setup for the `catch` wiring claims.  A catch protecting a region
that first runs an observable step (`prim 1`, which forwards its input)
and then raises `e`; the outer failure continuation (`traceback`) is the
observable `prim 2`. -/

/-- The protected region handed to `catch` as its `start` continuation:
an observable pass-through step followed by `IO.raise(e)`. -/
def c1region (e : α) : Act α :=
  .seqA (.prim 1 (fun a => .succeed a)) (.raiseA e)

/-- The outer failure continuation (`traceback`) of the catch. -/
def c1tb : Act α := .prim 2 (fun a => .succeed a)

/-- The failure continuation `catch` installs around its region:
`branch(sendKV({restart: ...}, onfail), branch(catch_, start, traceback), traceback)`. -/
def c1fail (h : Act α) (e : α) : Act α :=
  .branchA (.withRestartA (.catchA h) (c1region e) c1tb h)
    (.branchA (.catchA h) (c1region e) c1tb) c1tb

/-- The IOError the handler receives: payload `e`, the input `x` present
at the raise point, the raise site's captured continuations, and the
`restart` callback attached by `sendKV`. -/
def c1errVal (h : Act α) (e x : α) : Val α :=
  .err (.mk e (.base x) (.seqA .drain .drain) (c1fail h e)
    (.mk (.catchA h) (c1region e) c1tb))

/-- C1: for every handler installed by `catch(h)`, when a failure occurs in
the protected region the handler is invoked with the IOError as input
(restart attached); if the handler succeeds with a value, the sequence
that follows the catch receives that value next (resume forward); if the
handler fails, the outer failure continuation receives its error. -/
theorem catch_handler_wiring (α : Type) (f g : α → α) (e x : α) :
    ((exec 30 (.catchA (.prim 0 (fun a => .succeed (f a)))) (.base x)
        (c1region e) c1tb).take 3
      = [.called 1 (.base x),
         .called 0 (c1errVal (.prim 0 (fun a => .succeed (f a))) e x),
         .called 1 (.base (f e))])
    ∧ (exec 30 (.catchA (.prim 0 (fun a => .failWith (g a)))) (.base x)
        (c1region e) c1tb
      = [.called 1 (.base x),
         .called 0 (c1errVal (.prim 0 (fun a => .failWith (g a))) e x),
         .called 2 (.base (g e))]) :=
  ⟨rfl, rfl⟩

/-! C4: the forgive law.  In the source, `catch`'s handler success
continuation is `branch(catch_, start, traceback)`: it re-enters the
whole protected region.  With `forgive` as handler and `raise(e)` as the
region, each handler round returns to the very same configuration, so
the chain never delivers anything, while `pass` delivers its input. -/

/-- The actions of `chain([catch(forgive), raise(e)])`. -/
def c4as (e : α) : ActList α :=
  .cons (.catchA .forgiveA) (.cons (.raiseA e) .nil)

/-- One handler round of `chain([catch(forgive), raise(e)])` (seven
`M.call` dispatches) returns to the identical configuration. -/
theorem c4loop (e : α) (x : Val α) (S F : Act α) (n : Nat) :
    exec (n + 7) (.catchA .forgiveA) x (.chainIterA (c4as e) 1 S) F
      = exec n (.catchA .forgiveA) x (.chainIterA (c4as e) 1 S) F := rfl

/-- The looping configuration of `chain([catch(forgive), raise(e)])`
produces no observable event at any fuel. -/
theorem c4silent (e : α) (x : Val α) (S F : Act α) :
    ∀ n, exec n (.catchA .forgiveA) x (.chainIterA (c4as e) 1 S) F = [] := by
  intro n
  induction n using Nat.strong_induction_on with
  | _ n ih =>
    match n with
    | 0 => rfl
    | 1 => rfl
    | 2 => rfl
    | 3 => rfl
    | 4 => rfl
    | 5 => rfl
    | 6 => rfl
    | m + 7 =>
      rw [c4loop]
      exact ih m (by omega)

set_option maxRecDepth 4000 in
/-- C4 counterexample: with payload `e = 7` and input `1`,
`chain([catch(forgive), raise(e)])` invokes no continuation at all
(trace empty even with fuel 1000), while `pass` delivers the input `1`
to the continuation after it. -/
theorem forgive_chain_not_pass :
    exec 1000 (.chainA (c4as 7)) (.base 1) (.prim 0 (fun _ => .stop)) .drain = []
    ∧ exec 2 (Act.passA : Act Nat) (.base 1) (.prim 0 (fun _ => .stop)) .drain
        = [.called 0 (.base 1)] :=
  ⟨rfl, rfl⟩

/-- C4 amended: `chain([catch(forgive), raise(e)])` never delivers
anything — the handler's success re-enters the protected region, which
raises again, returning to the same configuration, so the continuation
after the chain is never invoked.  The propagate-forward law holds for
`try` instead: `try(raise(e), forgive)` is observationally `pass` (the
input captured at the raise site is propagated forward). -/
theorem forgive_chain_diverges (α : Type) (e x : α) (S F : Act α) :
    (∀ n : Nat, exec n (.chainA (c4as e)) (.base x) S F = [])
    ∧ (∀ (n : Nat) (y : Val α) (s f : Act α),
        exec (n + 4) (.tryA (.raiseA e) .forgiveA) y s f
          = exec (n + 1) .passA y s f) := by
  refine ⟨?_, fun n y s f => rfl⟩
  intro n
  match n with
  | 0 => rfl
  | 1 => rfl
  | m + 2 =>
    show exec m (.catchA .forgiveA) (.base x) (.chainIterA (c4as e) 1 S) F = []
    exact c4silent e (.base x) S F m

/-! C6: resume equivalence. -/

/-- The actions of `chain([catch(h), raise(e), downstream])` where the
handler `h` immediately calls `err.resume(v)` and `downstream` is the
observable continuation at the raise site. -/
def c6left (e v : α) (k : α → α) : ActList α :=
  .cons (.catchA (.resumeWith v))
    (.cons (.raiseA e) (.cons (.prim 1 (fun a => .succeed (k a))) .nil))

/-- The actions of `chain([supply(v), downstream])`. -/
def c6right (v : α) (k : α → α) : ActList α :=
  .cons (.supplyA v) (.cons (.prim 1 (fun a => .succeed (k a))) .nil)

/-- Observable end-of-sequence continuation. -/
def obsEnd : Act α := .prim 9 (fun _ => .stop)

/-- C6: `raise(e)` under a catch whose handler immediately calls
`err.resume(v)` is observationally `supply(v)`: the continuation
downstream of the raise site receives exactly `v`, and the subsequent
flow is identical to the `supply(v)` run. -/
theorem resume_equiv_supply (α : Type) (e v x : α) (k : α → α) :
    exec 30 (.chainA (c6left e v k)) (.base x) obsEnd .drain
      = [.called 1 (.base v), .called 9 (.base (k v))]
    ∧ exec 30 (.chainA (c6right v k)) (.base x) obsEnd .drain
      = [.called 1 (.base v), .called 9 (.base (k v))] :=
  ⟨rfl, rfl⟩

end IOJS

namespace IOJS

/-! C3: the orchestrator depth counter.  `ExM.call` runs
`if (M.depth++ < M.maxdepth)` (post-increment in both branches); when the
bound is hit it defers via next-tick, whose callback assigns
`M.depth = Math.min(0, M.maxdepth - 1)` and re-calls. -/

/-- One `ExM.call` on the depth counter: whether the action body executes
now (`depth < maxdepth` before the post-increment) and the new counter
value (incremented in either branch). -/
def callStep (maxd d : Int) : Bool × Int := (decide (d < maxd), d + 1)

/-- The value the deferred next-tick re-entry assigns to the counter:
`Math.min(0, M.maxdepth - 1)`. -/
def resetDepth (maxd : Int) : Int := min 0 (maxd - 1)

/-- Counter values reachable from the initial `depth: 0` by calls
(post-increment) and next-tick resets. -/
inductive DepthReachable (maxd : Int) : Int → Prop where
  | init : DepthReachable maxd 0
  | call (d : Int) : DepthReachable maxd d → DepthReachable maxd (callStep maxd d).2
  | reset (d : Int) : DepthReachable maxd d → DepthReachable maxd (resetDepth maxd)

/-- Every natural number is a reachable counter value: deferred calls
still post-increment the counter, so it keeps growing past `maxdepth`. -/
theorem depthReachable_nat (maxd : Int) : ∀ n : Nat, DepthReachable maxd (n : Int) := by
  intro n
  induction n with
  | zero => exact .init
  | succ m ih =>
    have h := @DepthReachable.call maxd (m : Int) ih
    simpa [callStep] using h

/-- C3 counterexample: with the default `maxdepth = 50`, the counter
reaches 51 (it exceeds `maxdepth`, because deferring calls still
post-increment it), and the value assigned before re-entry is
`Math.min(0, 49) = 0` — not a negative number. -/
theorem depth_counter_claim_false :
    DepthReachable 50 51 ∧ (50 : Int) < 51 ∧ resetDepth 50 = 0 ∧ ¬ resetDepth 50 < 0 :=
  ⟨by simpa using depthReachable_nat 50 51, by decide, by decide, by decide⟩

/-- C3 amended: the counter stays non-negative (for `maxdepth ≥ 1`); an
action body executes only when the pre-increment depth is below
`maxdepth`, so the depth during an executing action never exceeds
`maxdepth`; on reaching the bound the call is deferred to the next tick
and the counter is reset to `min(0, maxdepth - 1)` — which is `0`, not a
small negative — before re-entry. -/
theorem depth_counter_amended (maxd : Int) (hm : 1 ≤ maxd) :
    (∀ d, DepthReachable maxd d → 0 ≤ d)
    ∧ (∀ d : Int, (callStep maxd d).1 = true → (callStep maxd d).2 ≤ maxd)
    ∧ resetDepth maxd = 0 := by
  refine ⟨?_, ?_, ?_⟩
  · intro d h
    induction h with
    | init => omega
    | call d _ ih => simp only [callStep]; omega
    | reset d _ _ => simp only [resetDepth]; omega
  · intro d h
    simp only [callStep, decide_eq_true_eq] at h ⊢
    omega
  · simp only [resetDepth]
    omega

/-- Witness for the amended depth theorem at `maxdepth = 50`, depth `0`. -/
theorem depth_counter_amended_witness :
    (1 : Int) ≤ 50 ∧ (0 : Int) ≤ 0 ∧ (callStep 50 0).2 ≤ 50 ∧ resetDepth 50 = 0 := by
  have h := depth_counter_amended 50 (by decide)
  exact ⟨by decide, h.1 0 .init, h.2.1 0 (by decide), h.2.2⟩

/-! C7: `IO.interruptible` (lines 446-470 of the source).  The body's
first statement is `var interrupt = cont;`.  JavaScript evaluates the
initializer by resolving the identifier `cont` through the scope chain;
an identifier declared in no enclosing scope (and absent from the
global object) throws a ReferenceError at that point — before
`oninterrupt` is handed to the builder and before any cleanup handler
can be installed. -/

/-- A thrown JavaScript error (here only the ReferenceError raised when
an identifier resolves in no scope). -/
inductive JsError where
  | referenceError (ident : String)
deriving DecidableEq

/-- Every identifier declared in a scope enclosing the statement
`var interrupt = cont`: the hoisted locals and parameter of
`IO.interruptible` itself, the module IIFE's parameter and its
top-level declarations, and the host globals the file refers to.  The
identifier `cont` occurs nowhere in the source except at that one use,
and no host environment defines a global named `cont`. -/
def scopeAtInterruptible : List String :=
  ["interruptible", "interrupt", "oninterrupt", "action", "arguments",
   "IO", "nextTick", "ExM", "defaultInspector",
   "actionArray", "IOError", "IOPauseCondition", "pass", "autodrain",
   "autobranch", "fail", "bind", "send", "seq", "branch", "failseq",
   "autowrap", "wrapFn", "wrapAsync3", "wrapAsync2", "wrapObj",
   "expandObj", "autoseq", "chain", "chain_iter", "alt_impl", "any_impl",
   "sendKV", "bindInput", "patternMatcher", "copyKeys", "mappableAtomic",
   "module", "exports", "require", "process", "setImmediate",
   "MessageChannel", "Image", "setTimeout", "console", "Math", "Object",
   "Array", "Function", "Date", "JSON"]

/-- Evaluating an identifier: resolve it through the scope chain, or
throw a ReferenceError. -/
def evalIdent (scope : List String) (ident : String) : Except JsError String :=
  if ident ∈ scope then .ok ident else .error (.referenceError ident)

/-- `IO.interruptible(builder)`: the first statement of its body
evaluates the identifier `cont` (line 447).  Only if that resolves does
execution reach the rest of the construction — defining `oninterrupt`,
calling the builder, attaching the `interrupt` property — so with the
source's actual scope that remainder is unreachable. -/
def interruptibleConstruct (scope : List String) : Except JsError Unit :=
  match evalIdent scope "cont" with
  | .error e => .error e
  | .ok _ => .ok ()

/-- C7: invoking `IO.interruptible` at all throws
`ReferenceError: cont is not defined` — the identifier `cont` is bound
in no enclosing scope — so the construction aborts before any cleanup
handler can be registered, and no action with the claimed
installation-order, exactly-once, or idempotence behavior is ever
built. -/
theorem interruptible_reference_error :
    interruptibleConstruct scopeAtInterruptible
      = Except.error (.referenceError "cont")
    ∧ "cont" ∉ scopeAtInterruptible := by
  exact ⟨rfl, by decide⟩

/-! C10: `IO.sync(N)`.  The closure state is the `countDown` counter
(initialized `N || 1`), the parked `followon` continuation (installed by
`now`, cleared when it fires), and how many times `now`'s continuation
has fired. -/

/-- Closure state of one `IO.sync(N)` pair. -/
structure SyncState where
  countDown : Int
  parked : Bool
  fired : Nat
deriving DecidableEq

/-- Initial state: `countDown = N || 1` (JS `||`: 0 is falsy). -/
def syncInit (N : Nat) : SyncState :=
  ⟨((if N = 0 then 1 else N : Nat) : Int), false, 0⟩

/-- `now`: record the continuation in `followon` and park.  (The
countdown is not reset.) -/
def nowStep (s : SyncState) : SyncState := { s with parked := true }

/-- `later`: if a `followon` is parked, decrement the countdown and fire
the parked continuation once it reaches zero (clearing `followon`);
in every case `later` then forwards its own input to its own success. -/
def laterStep (s : SyncState) : SyncState :=
  if s.parked then
    if s.countDown - 1 ≤ 0 then ⟨s.countDown - 1, false, s.fired + 1⟩
    else ⟨s.countDown - 1, true, s.fired⟩
  else s

/-- A `later` before `now` leaves the state untouched. -/
theorem laterStep_unparked (s : SyncState) (h : s.parked = false) : laterStep s = s := by
  simp [laterStep, h]

/-- Iterating `later` on a parked countdown. -/
theorem laterStep_iterate (j : Nat) :
    ∀ (c : Int) (m : Nat), 1 ≤ c →
      laterStep^[j] ⟨c, true, m⟩
        = if (j : Int) < c then ⟨c - j, true, m⟩ else ⟨0, false, m + 1⟩ := by
  induction j with
  | zero =>
    intro c m hc
    rw [Function.iterate_zero_apply, if_pos (show ((0 : Nat) : Int) < c by push_cast; omega)]
    norm_num
  | succ i ih =>
    intro c m hc
    rw [Function.iterate_succ_apply]
    by_cases h1 : c = 1
    · subst h1
      have hstep : laterStep ⟨1, true, m⟩ = ⟨0, false, m + 1⟩ := by
        simp [laterStep]
      rw [hstep]
      have hfix : ∀ k : Nat, laterStep^[k] (⟨0, false, m + 1⟩ : SyncState) = ⟨0, false, m + 1⟩ := by
        intro k
        induction k with
        | zero => rfl
        | succ k2 ihk => rw [Function.iterate_succ_apply, laterStep_unparked _ rfl, ihk]
      rw [hfix, if_neg (show ¬ ((i + 1 : Nat) : Int) < 1 by push_cast; omega)]
    · have hstep : laterStep ⟨c, true, m⟩ = ⟨c - 1, true, m⟩ := by
        have hgt : ¬ (c - 1 ≤ 0) := by omega
        simp [laterStep, hgt]
      rw [hstep, ih (c - 1) m (by omega)]
      by_cases h2 : (i : Int) < c - 1
      · rw [if_pos h2, if_pos (show ((i + 1 : Nat) : Int) < c by push_cast at h2 ⊢; omega)]
        congr 1
        push_cast
        omega
      · rw [if_neg h2, if_neg (show ¬ ((i + 1 : Nat) : Int) < c by push_cast at h2 ⊢; omega)]

/-- C10: for `IO.sync(N)`, `later` invocations executed before `now` do
not count toward the required completions (they leave the pair's state
unchanged, only forwarding their input); once `now` has parked its
continuation, that continuation has fired exactly once after `j`
subsequent `later` invocations when `j ≥ N` (with `N = 0` treated as 1,
per `N || 1`), and zero times while `j < N` — so it fires only after the
required `later`s and fires at most once. -/
theorem sync_now_later (N i j : Nat) :
    laterStep^[i] (syncInit N) = syncInit N
    ∧ (laterStep^[j] (nowStep (laterStep^[i] (syncInit N)))).fired
        = (if (if N = 0 then 1 else N) ≤ j then 1 else 0)
    ∧ (laterStep^[j] (nowStep (laterStep^[i] (syncInit N)))).fired ≤ 1 := by
  have hpre : laterStep^[i] (syncInit N) = syncInit N := by
    induction i with
    | zero => rfl
    | succ k ih => rw [Function.iterate_succ_apply, laterStep_unparked _ rfl, ih]
  have key : ∀ MM : Nat, 1 ≤ MM →
      (laterStep^[j] (⟨(MM : Int), true, 0⟩ : SyncState)).fired
        = if MM ≤ j then 1 else 0 := by
    intro MM h1
    rw [laterStep_iterate j (MM : Int) 0 (by omega)]
    by_cases h : MM ≤ j
    · rw [if_neg (show ¬ ((j : Int) < (MM : Int)) by omega), if_pos h]
    · rw [if_pos (show (j : Int) < (MM : Int) by omega), if_neg h]
  have hn : nowStep (syncInit N) = ⟨((if N = 0 then 1 else N : Nat) : Int), true, 0⟩ := rfl
  refine ⟨hpre, ?_, ?_⟩ <;> rw [hpre, hn, key _ (by split <;> omega)]
  by_cases h : (if N = 0 then 1 else N) ≤ j
  · rw [if_pos h]
  · rw [if_neg h]
    omega

end IOJS

namespace IOJS

/-! C2: `IO.atomic`.  Closure state: the waiter queue `arr` (we record
the queued inputs), the `busy` flag, and whether a `pauseStream`
IOPauseCondition has been allocated and is outstanding. -/

/-- Closure state of one `IO.atomic(action)` instance. -/
structure AtomicState (α : Type) where
  arr : List α
  busy : Bool
  pause : Bool
deriving DecidableEq

/-- What one entry into the atomic region did. -/
inductive AtomicEv (α : Type) where
  | dispatched (x : α)
  | enqueued (x : α)
  | pauseEnqueued (x : α)
  | dequeued (x : α)
  | wentIdle
deriving DecidableEq

def atomicInit : AtomicState α := ⟨[], false, false⟩

/-- `doit(M, input, succ, fail)` of `IO.atomic`: if idle, mark busy and
dispatch; if busy and `arr.length + 1 >= M.kBufferCapacity` (with a
truthy capacity), push the entry AND deliver the shared PauseCondition
to the caller's failure continuation; otherwise just push. -/
def doit (cap : Nat) (s : AtomicState α) (input : α) : AtomicState α × AtomicEv α :=
  if s.busy = false then ({ s with busy := true }, .dispatched input)
  else if cap ≠ 0 ∧ cap ≤ s.arr.length + 1 then
    ({ s with arr := s.arr ++ [input], pause := true }, .pauseEnqueued input)
  else ({ s with arr := s.arr ++ [input] }, .enqueued input)

/-- `done(M, output, succ, fail)` of `IO.atomic`: if waiters remain,
shift and dispatch the next one, resuming an outstanding pause once the
queue is below capacity; otherwise clear `busy`. -/
def doneStep (cap : Nat) (s : AtomicState α) : AtomicState α × AtomicEv α :=
  match s.arr with
  | [] => ({ s with busy := false }, .wentIdle)
  | x :: rest =>
    (⟨rest, s.busy, if s.pause ∧ rest.length < cap then false else s.pause⟩, .dequeued x)

/-- The interleavings the instance can see: an entry call with an input,
or a completion of the running dispatch. -/
inductive AtomicOp (α : Type) where
  | call (x : α)
  | complete
deriving DecidableEq

def atomicStep (cap : Nat) (s : AtomicState α) : AtomicOp α → AtomicState α
  | .call x => (doit cap s x).1
  | .complete => (doneStep cap s).1

def runAtomic (cap : Nat) (ops : List (AtomicOp α)) : AtomicState α :=
  ops.foldl (atomicStep cap) atomicInit

/-- A caller respects backpressure when it never makes a further entry
call while a PauseCondition is outstanding. -/
def disciplinedB (cap : Nat) : AtomicState α → List (AtomicOp α) → Bool
  | _, [] => true
  | s, op :: rest =>
    match op with
    | .call _ => !s.pause && disciplinedB cap (atomicStep cap s op) rest
    | .complete => disciplinedB cap (atomicStep cap s op) rest

/-- C2 counterexample: with the default capacity 8, ten entry calls
against a busy region leave NINE queued entries (the buffer exceeds
`bufferCapacity`), and the call made when `arr.length + 1 >= 8` both
delivered the PauseCondition and pushed its item: after the ninth call
the queue already holds the item `8` that the claim says is not added. -/
theorem atomic_buffer_claim_false :
    (runAtomic 8 ((List.range 10).map AtomicOp.call)).arr
        = [1, 2, 3, 4, 5, 6, 7, 8, 9]
    ∧ 8 < (runAtomic 8 ((List.range 10).map AtomicOp.call)).arr.length
    ∧ (doit 8 (runAtomic 8 ((List.range 9).map AtomicOp.call)) 9).2
        = AtomicEv.pauseEnqueued 9
    ∧ 8 ∈ (runAtomic 8 ((List.range 9).map AtomicOp.call)).arr := by
  refine ⟨by decide, by decide, by decide, by decide⟩

/-- Invariant carried by a disciplined run. -/
def AtomicInv (cap : Nat) (s : AtomicState α) : Prop :=
  (s.pause = false → s.arr.length + 1 ≤ cap) ∧ s.arr.length ≤ cap

theorem atomicInv_step (cap : Nat) (hc : 1 ≤ cap) (s : AtomicState α) (op : AtomicOp α)
    (hs : AtomicInv cap s) (hcall : ∀ x, op = .call x → s.pause = false) :
    AtomicInv cap (atomicStep cap s op) := by
  obtain ⟨arr, busy, pause⟩ := s
  obtain ⟨h1, h2⟩ := hs
  simp only [AtomicInv] at h1 h2 ⊢
  cases op with
  | call x =>
    have hp : pause = false := hcall x rfl
    subst hp
    have h1x := h1 rfl
    dsimp only [atomicStep, doit]
    by_cases hb : busy = false
    · rw [if_pos hb]
      exact ⟨fun _ => h1x, h2⟩
    · rw [if_neg hb]
      by_cases hfull : cap ≠ 0 ∧ cap ≤ arr.length + 1
      · rw [if_pos hfull]
        refine ⟨fun hpf => absurd hpf (by simp), ?_⟩
        simp only [List.length_append, List.length_cons, List.length_nil]
        omega
      · rw [if_neg hfull]
        have hroom : arr.length + 1 < cap := by
          rcases not_and_or.mp hfull with h | h <;> omega
        constructor
        · intro _
          simp only [List.length_append, List.length_cons, List.length_nil]
          omega
        · simp only [List.length_append, List.length_cons, List.length_nil]
          omega
  | complete =>
    dsimp only [atomicStep, doneStep]
    cases arr with
    | nil =>
      exact ⟨fun _ => by simpa using hc, by simpa using Nat.zero_le cap⟩
    | cons x rest =>
      simp only [List.length_cons] at h1 h2
      constructor
      · intro hp
        dsimp only at hp
        by_cases hcond : pause = true ∧ rest.length < cap
        · dsimp only
          omega
        · rw [if_neg hcond] at hp
          have h1r := h1 hp
          dsimp only
          omega
      · dsimp only
        omega

theorem atomicInv_run (cap : Nat) (hc : 1 ≤ cap) :
    ∀ (ops : List (AtomicOp α)) (s : AtomicState α),
      AtomicInv cap s → disciplinedB cap s ops = true →
      AtomicInv cap (ops.foldl (atomicStep cap) s) := by
  intro ops
  induction ops with
  | nil => intro s hs _; exact hs
  | cons op rest ih =>
    intro s hs hd
    rw [List.foldl_cons]
    cases op with
    | call x =>
      simp only [disciplinedB, Bool.and_eq_true, Bool.not_eq_true'] at hd
      exact ih _ (atomicInv_step cap hc s (.call x) hs (fun y _ => hd.1)) hd.2
    | complete =>
      simp only [disciplinedB] at hd
      exact ih _ (atomicInv_step cap hc s .complete hs (fun y hy => by cases hy)) hd

/-- C2 amended: an entry call while busy and `arr.length + 1 >= cap`
both enqueues the item and delivers a PauseCondition to the caller's
failure continuation (the item IS added); the buffer length stays at
most `bufferCapacity` provided callers respect the backpressure signal
(no further entry call is made while a pause is outstanding). -/
theorem atomic_backpressure_amended (α : Type) (cap : Nat) (hc : 1 ≤ cap)
    (ops : List (AtomicOp α)) (hd : disciplinedB cap atomicInit ops = true) :
    (runAtomic cap ops).arr.length ≤ cap
    ∧ (∀ (s : AtomicState α) (x : α), s.busy = true → cap ≤ s.arr.length + 1 →
        (doit cap s x).1.arr = s.arr ++ [x] ∧ (doit cap s x).2 = .pauseEnqueued x) := by
  constructor
  · have h := atomicInv_run cap hc ops atomicInit
      ⟨fun _ => by simp [atomicInit]; omega, by simp [atomicInit]⟩ hd
    exact h.2
  · intro s x hb hfull
    dsimp only [doit]
    rw [if_neg (by rw [hb]; simp), if_pos ⟨by omega, hfull⟩]
    exact ⟨rfl, rfl⟩

/-- Witness for the amended atomic theorem: capacity 2, a dispatch, one
enqueue and one completion form a disciplined run with queue length
at most 2, and a near-full busy state pushes and pauses. -/
theorem atomic_backpressure_amended_witness :
    (1 ≤ 2 ∧ disciplinedB 2 (atomicInit : AtomicState Nat) [.call 0, .call 1, .complete] = true)
    ∧ (runAtomic 2 [AtomicOp.call 0, .call 1, .complete]).arr.length ≤ 2 := by
  have h := atomic_backpressure_amended Nat 2 (by decide)
    [.call 0, .call 1, .complete] (by decide)
  exact ⟨⟨by decide, by decide⟩, h.1⟩

end IOJS

namespace IOJS

/-! C8: the `IO.gen` burst budget.  `genOne_` refills `genCount` to
`M.kBufferCapacity` when it is 0, then loops synchronously: produce a
value, decrement, emit; if the downstream consumer raised an
IOPauseCondition during the emission the loop stops (paused); else if
the budget hit 0 the next emission is rescheduled via
`M.delay(delay_ms, genOne_, ...)`; else it recurses synchronously. -/

/-- How a synchronous emission burst of `IO.gen` ends. -/
inductive GenNext where
  | ended
  | pausedG
  | deferredG
deriving DecidableEq

/-- The emission loop of `genOne_` with the given remaining budget.
`prod` is the producer indexed by how many times it has been called;
`react pos` says whether the downstream consumer raises an
IOPauseCondition while handling the value produced at call `pos`.
Returns the values emitted in this synchronous burst and how the burst
ended.  (The 0-budget equation is never reached from `genBurst`, which
refills a zero budget first.) -/
def burstAux (prod : Nat → Option α) (react : Nat → Bool) : Nat → Nat → List α × GenNext
  | _, 0 => ([], .deferredG)
  | pos, g + 1 =>
    match prod pos with
    | none => ([], .ended)
    | some v =>
      if react pos then ([v], .pausedG)
      else if g = 0 then ([v], .deferredG)
      else
        let r := burstAux prod react (pos + 1) g
        (v :: r.1, r.2)

/-- One synchronous burst of `genOne_`: on entry,
`if (genCount === 0) genCount = M.kBufferCapacity`. -/
def genBurst (cap : Nat) (prod : Nat → Option α) (react : Nat → Bool) (pos g : Nat) :
    List α × GenNext :=
  burstAux prod react pos (if g = 0 then cap else g)

theorem burstAux_none (prod : Nat → Option α) (react : Nat → Bool) (pos g : Nat)
    (h : prod pos = none) : burstAux prod react pos (g + 1) = ([], .ended) := by
  simp [burstAux, h]

theorem burstAux_pause (prod : Nat → Option α) (react : Nat → Bool) (pos g : Nat) (v : α)
    (h : prod pos = some v) (hr : react pos = true) :
    burstAux prod react pos (g + 1) = ([v], .pausedG) := by
  simp [burstAux, h, hr]

theorem burstAux_exhaust (prod : Nat → Option α) (react : Nat → Bool) (pos : Nat) (v : α)
    (h : prod pos = some v) (hr : react pos = false) :
    burstAux prod react pos 1 = ([v], .deferredG) := by
  simp [burstAux, h, hr]

theorem burstAux_cont (prod : Nat → Option α) (react : Nat → Bool) (pos g : Nat) (v : α)
    (h : prod pos = some v) (hr : react pos = false) (hg : g ≠ 0) :
    burstAux prod react pos (g + 1)
      = (v :: (burstAux prod react (pos + 1) g).1, (burstAux prod react (pos + 1) g).2) := by
  simp [burstAux, h, hr, hg]

theorem burstAux_spec (prod : Nat → Option α) (react : Nat → Bool) :
    ∀ (g pos : Nat),
      (burstAux prod react pos g).1.length ≤ g
      ∧ ((burstAux prod react pos g).1.length = g → 1 ≤ g →
          (burstAux prod react pos g).2 = .pausedG
          ∨ (burstAux prod react pos g).2 = .deferredG)
      ∧ ((burstAux prod react pos g).1.length = g →
          (∀ k, k < g → react (pos + k) = false) →
          1 ≤ g → (burstAux prod react pos g).2 = .deferredG) := by
  intro g
  induction g with
  | zero =>
    intro pos
    exact ⟨Nat.le_refl 0, fun _ h => absurd h (by omega), fun _ _ h => absurd h (by omega)⟩
  | succ g ih =>
    intro pos
    cases hp : prod pos with
    | none =>
      rw [burstAux_none prod react pos g hp]
      refine ⟨by simp, fun hlen _ => by simp at hlen,
        fun hlen _ _ => by simp at hlen⟩
    | some v =>
      cases hr : react pos with
      | true =>
        rw [burstAux_pause prod react pos g v hp hr]
        refine ⟨by show (1 : Nat) ≤ g + 1; omega, fun _ _ => Or.inl rfl, fun _ hno _ => ?_⟩
        have h0 := hno 0 (by omega)
        rw [Nat.add_zero, hr] at h0
        cases h0
      | false =>
        by_cases hg : g = 0
        · subst hg
          rw [burstAux_exhaust prod react pos v hp hr]
          exact ⟨by show (1 : Nat) ≤ 1; omega, fun _ _ => Or.inr rfl, fun _ _ _ => rfl⟩
        · rw [burstAux_cont prod react pos g v hp hr hg]
          obtain ⟨ih1, ih2, ih3⟩ := ih (pos + 1)
          refine ⟨?_, fun hlen _ => ?_, fun hlen hno _ => ?_⟩
          · show (v :: (burstAux prod react (pos + 1) g).1).length ≤ g + 1
            simp only [List.length_cons]
            omega
          · simp only at hlen
            simp only [List.length_cons] at hlen
            exact ih2 (by omega) (by omega)
          · simp only at hlen
            simp only [List.length_cons] at hlen
            refine ih3 (by omega) (fun k hk => ?_) (by omega)
            have hk1 := hno (k + 1) (by omega)
            rw [show pos + (k + 1) = pos + 1 + k by omega] at hk1
            exact hk1

/-- C8: a generator burst starting with budget `g ≤ cap` (refilled to
`cap` when zero) emits at most `cap = bufferCapacity` values in one
synchronous run; and when it does emit a full `cap` values with no
intervening pause, the burst ends by deferring the next emission via
`M.delay(delay_ms, ...)`. -/
theorem gen_burst_budget (α : Type) (cap : Nat) (hc : 1 ≤ cap)
    (prod : Nat → Option α) (react : Nat → Bool) (pos g : Nat) (hg : g ≤ cap) :
    (genBurst cap prod react pos g).1.length ≤ cap
    ∧ ((genBurst cap prod react pos g).1.length = cap →
        (∀ k, k < cap → react (pos + k) = false) →
        (genBurst cap prod react pos g).2 = .deferredG) := by
  have hspec := burstAux_spec prod react (if g = 0 then cap else g) pos
  obtain ⟨h1, _, h3⟩ := hspec
  have hbud : (if g = 0 then cap else g) ≤ cap := by split <;> omega
  constructor
  · exact le_trans (by simpa [genBurst] using h1) hbud
  · intro hlen hno
    have hbudeq : (if g = 0 then cap else g) = cap := by
      have : cap ≤ (if g = 0 then cap else g) := by
        simp only [genBurst] at hlen
        omega
      omega
    simp only [genBurst] at hlen ⊢
    refine h3 (by omega) (fun k hk => hno k (by omega)) (by omega)

/-- Witness for the burst-budget theorem: capacity 8, an endless
producer and a consumer that never pauses: the burst emits exactly 8
values and defers. -/
theorem gen_burst_budget_witness :
    (1 ≤ 8 ∧ (0 : Nat) ≤ 8)
    ∧ (genBurst 8 (fun i => some i) (fun _ => false) 0 0).1.length ≤ 8
    ∧ (genBurst 8 (fun i => some i) (fun _ => false) 0 0).2 = .deferredG := by
  have h := gen_burst_budget Nat 8 (by decide) (fun i => some i) (fun _ => false) 0 0 (by decide)
  exact ⟨⟨by decide, by decide⟩, h.1, h.2 (by decide) (fun k _ => rfl)⟩

/-! C9: `IO.chan`.  Shared state: the item queue and the waiter queue;
`flush` pairs fronts while both are nonempty. -/

/-- `flush()` of `IO.chan`: repeatedly hand the front queued item to
the front waiter while both queues are nonempty.  Returns the remaining
queues and the deliveries made, in order. -/
def flushChan : List α → List Nat → (List α × List Nat) × List (Nat × α)
  | x :: xs, w :: ws =>
    let r := flushChan xs ws
    (r.1, (w, x) :: r.2)
  | xs, ws => ((xs, ws), [])

/-- State of one `IO.chan()` instance. -/
structure ChanState (α : Type) where
  queue : List α
  waiters : List Nat
deriving DecidableEq

def chanInit : ChanState α := ⟨[], []⟩

/-- `send(x)`: push onto the item queue, flush, then continue the
sender with its own input (not a delivery). -/
def sendChan (s : ChanState α) (x : α) : ChanState α × List (Nat × α) :=
  let r := flushChan (s.queue ++ [x]) s.waiters
  (⟨r.1.1, r.1.2⟩, r.2)

/-- `recv`: flush first; if an item is queued deliver the front to this
receiver, else park the receiver's success continuation as a waiter. -/
def recvChan (s : ChanState α) (w : Nat) : ChanState α × List (Nat × α) :=
  let r := flushChan s.queue s.waiters
  match r.1.1 with
  | [] => (⟨[], r.1.2 ++ [w]⟩, r.2)
  | x :: xs => (⟨xs, r.1.2⟩, r.2 ++ [(w, x)])

/-- An interleaving of channel operations. -/
inductive ChanOp (α : Type) where
  | send (x : α)
  | recv (w : Nat)
deriving DecidableEq

def chanStep : ChanState α × List (Nat × α) → ChanOp α → ChanState α × List (Nat × α)
  | (s, ds), .send x => ((sendChan s x).1, ds ++ (sendChan s x).2)
  | (s, ds), .recv w => ((recvChan s w).1, ds ++ (recvChan s w).2)

def runChan (ops : List (ChanOp α)) : ChanState α × List (Nat × α) :=
  ops.foldl chanStep (chanInit, [])

/-- The values sent, in order. -/
def sentOf : List (ChanOp α) → List α
  | [] => []
  | .send x :: rest => x :: sentOf rest
  | .recv _ :: rest => sentOf rest

/-- `flush` conserves items and waiters: the old queues are exactly the
deliveries (in order) followed by the remaining queues. -/
theorem flushChan_spec :
    ∀ (q : List α) (w : List Nat),
      q = (flushChan q w).2.map Prod.snd ++ (flushChan q w).1.1
      ∧ w = (flushChan q w).2.map Prod.fst ++ (flushChan q w).1.2 := by
  intro q
  induction q with
  | nil => intro w; simp [flushChan]
  | cons x xs ih =>
    intro w
    cases w with
    | nil => simp [flushChan]
    | cons wid ws =>
      obtain ⟨h1, h2⟩ := ih ws
      dsimp only [flushChan]
      constructor
      · rw [List.map_cons, List.cons_append]
        exact congrArg (List.cons x) h1
      · rw [List.map_cons, List.cons_append]
        exact congrArg (List.cons wid) h2

theorem chan_conservation_aux :
    ∀ (ops : List (ChanOp α)) (s : ChanState α) (ds : List (Nat × α)),
      (ops.foldl chanStep (s, ds)).2.map Prod.snd ++ (ops.foldl chanStep (s, ds)).1.queue
        = ds.map Prod.snd ++ s.queue ++ sentOf ops := by
  intro ops
  induction ops with
  | nil => intro s ds; simp [sentOf]
  | cons op rest ih =>
    intro s ds
    rw [List.foldl_cons]
    cases op with
    | send x =>
      have hq := (flushChan_spec (s.queue ++ [x]) s.waiters).1
      rcases hfl : flushChan (s.queue ++ [x]) s.waiters with ⟨⟨q2, w2⟩, fds⟩
      rw [hfl] at hq
      dsimp only [chanStep, sendChan]
      rw [hfl]
      dsimp only
      rw [ih]
      simp only [List.map_append, sentOf]
      rw [show List.map Prod.snd ds ++ s.queue ++ x :: sentOf rest
            = List.map Prod.snd ds ++ ((s.queue ++ [x]) ++ sentOf rest) by simp, hq]
      simp [List.append_assoc]
    | recv w =>
      have hq := (flushChan_spec s.queue s.waiters).1
      rcases hfl : flushChan s.queue s.waiters with ⟨⟨q2, w2⟩, fds⟩
      rw [hfl] at hq
      dsimp only [chanStep, recvChan]
      rw [hfl]
      cases q2 with
      | nil =>
        dsimp only
        rw [ih]
        simp only [List.map_append, List.append_nil] at hq ⊢
        rw [sentOf, hq]
      | cons y ys =>
        dsimp only
        rw [ih]
        simp only [List.map_append, List.map_cons, sentOf]
        rw [hq]
        simp [List.append_assoc]

/-- C9 counterexample: after a single `send(1)` with no receiver, no
value has been delivered, so the multiset of delivered values (empty)
differs from the multiset of sent values (`{1}`): the sent value is
still sitting in the channel's item queue. -/
theorem chan_claim_false :
    sentOf [ChanOp.send (1 : Nat)] = [1]
    ∧ (runChan [ChanOp.send (1 : Nat)]).2 = []
    ∧ (runChan [ChanOp.send (1 : Nat)]).2.map Prod.snd ≠ sentOf [ChanOp.send (1 : Nat)]
    ∧ (runChan [ChanOp.send (1 : Nat)]).1.queue = [1] := by
  exact ⟨rfl, rfl, by decide, rfl⟩

/-- C9 amended: for every interleaving of sends and receives, the
sequence of sent values equals the deliveries made to receivers (in
order) followed by the values still in the channel queue.  Hence no
sent value is lost, none is delivered twice, and the delivered multiset
equals the sent multiset exactly when the queue has drained. -/
theorem chan_pairing (α : Type) (ops : List (ChanOp α)) :
    sentOf ops
      = (runChan ops).2.map Prod.snd ++ (runChan ops).1.queue := by
  have h := chan_conservation_aux ops chanInit []
  simpa [runChan, chanInit] using h.symm

end IOJS

namespace IOJS

/-! C5: `IO.fork`.  Each forked action is dispatched on a fresh tick and
reports exactly once, tagged with its index: successes through `join`
(`{index: i, value: v}` built by the appended map), failures through
`errjoin` (the IOError with `err.index = i` set by `sendKV`).  The
completion order is arbitrary; we model a run as the list of
`(index, result)` reports in completion order. -/

/-- Result reported by one fork branch: the success value or the
IOError of that branch. -/
inductive BranchRes (α ε : Type) where
  | ok (v : α)
  | errR (e : ε)
deriving DecidableEq

/-- What `fork_` delivers when the final branch reports. -/
inductive ForkOut (α ε : Type) where
  | success (results : List (Option (BranchRes α ε)))
  | failure (e : ε)
deriving DecidableEq

/-- Closure state of one `fork_` invocation: the two counters, the
sparse `results` array, and what (if anything) has been delivered to
the fork's continuations. -/
structure ForkState (α ε : Type) where
  countUp : Nat
  errUp : Nat
  results : List (Option (BranchRes α ε))
  delivered : Option (ForkOut α ε)
deriving DecidableEq

def forkInit (n : Nat) : ForkState α ε := ⟨0, 0, List.replicate n none, none⟩

/-- `join` / `errjoin` processing one branch report; `n` is the number
of forked actions. -/
def forkStep (n : Nat) (s : ForkState α ε) : Nat × BranchRes α ε → ForkState α ε
  | (i, .ok v) =>
    if s.errUp + (s.countUp + 1) = n then
      ⟨s.countUp + 1, s.errUp, s.results.set i (some (.ok v)),
        some (.success (s.results.set i (some (.ok v))))⟩
    else ⟨s.countUp + 1, s.errUp, s.results.set i (some (.ok v)), s.delivered⟩
  | (i, .errR e) =>
    if s.errUp + 1 + s.countUp = n then
      if s.countUp = 0 then
        ⟨s.countUp, s.errUp + 1, s.results.set i (some (.errR e)), some (.failure e)⟩
      else
        ⟨s.countUp, s.errUp + 1, s.results.set i (some (.errR e)),
          some (.success (s.results.set i (some (.errR e))))⟩
    else ⟨s.countUp, s.errUp + 1, s.results.set i (some (.errR e)), s.delivered⟩

def runFork (n : Nat) (evs : List (Nat × BranchRes α ε)) : ForkState α ε :=
  evs.foldl (forkStep n) (forkInit n)

/-- Whether a report is a success report. -/
def isOkEv : Nat × BranchRes α ε → Bool
  | (_, .ok _) => true
  | (_, .errR _) => false

theorem forkStep_counts (n : Nat) (s : ForkState α ε) (p : Nat × BranchRes α ε) :
    (forkStep n s p).countUp + (forkStep n s p).errUp = s.countUp + s.errUp + 1
    ∧ (forkStep n s p).countUp
        = s.countUp + (if isOkEv p then 1 else 0)
    ∧ (forkStep n s p).results = s.results.set p.1 (some p.2) := by
  obtain ⟨i, b⟩ := p
  cases b with
  | ok v =>
    dsimp only [forkStep, isOkEv]
    split <;>
      exact ⟨by show s.countUp + 1 + s.errUp = s.countUp + s.errUp + 1; omega, rfl, rfl⟩
  | errR e =>
    dsimp only [forkStep, isOkEv]
    split
    · split <;> exact ⟨rfl, rfl, rfl⟩
    · exact ⟨rfl, rfl, rfl⟩

theorem forkRun_counts (n : Nat) :
    ∀ (l : List (Nat × BranchRes α ε)) (s : ForkState α ε),
      (l.foldl (forkStep n) s).countUp + (l.foldl (forkStep n) s).errUp
          = s.countUp + s.errUp + l.length
      ∧ (l.foldl (forkStep n) s).countUp
          = s.countUp + (l.filter isOkEv).length
      ∧ (l.foldl (forkStep n) s).results
          = l.foldl (fun r p => r.set p.1 (some p.2)) s.results := by
  intro l
  induction l with
  | nil => intro s; exact ⟨by simp, by simp, rfl⟩
  | cons p t ih =>
    intro s
    obtain ⟨h1, h2, h3⟩ := forkStep_counts n s p
    obtain ⟨ih1, ih2, ih3⟩ := ih (forkStep n s p)
    rw [List.foldl_cons]
    refine ⟨by simp only [List.length_cons]; omega, ?_, ?_⟩
    · rw [ih2, h2, List.filter_cons]
      cases hok : isOkEv p
      · simp only [hok, Bool.false_eq_true, if_neg, ite_false]
        omega
      · simp only [hok, ite_true, List.length_cons]
        omega
    · rw [ih3, h3, List.foldl_cons]

theorem forkRun_no_delivery (n : Nat) :
    ∀ (l : List (Nat × BranchRes α ε)) (s : ForkState α ε),
      s.delivered = none → s.countUp + s.errUp + l.length < n →
      (l.foldl (forkStep n) s).delivered = none := by
  intro l
  induction l with
  | nil => intro s h _; exact h
  | cons p t ih =>
    intro s h hlt
    rw [List.foldl_cons]
    simp only [List.length_cons] at hlt
    have hstep : (forkStep n s p).delivered = none := by
      obtain ⟨i, b⟩ := p
      cases b with
      | ok v =>
        dsimp only [forkStep]
        rw [if_neg (by omega)]
        exact h
      | errR e =>
        dsimp only [forkStep]
        rw [if_neg (by omega)]
        exact h
    refine ih (forkStep n s p) hstep ?_
    have := (forkStep_counts n s p).1
    omega

theorem foldl_set_get? (o : Nat → BranchRes α ε) :
    ∀ (l : List (Nat × BranchRes α ε)) (r : List (Option (BranchRes α ε))) (i : Nat),
      (∀ p ∈ l, p.2 = o p.1) →
      (l.foldl (fun r p => r.set p.1 (some p.2)) r).get? i
        = if i ∈ l.map Prod.fst then
            (if i < r.length then some (some (o i)) else none)
          else r.get? i := by
  intro l
  induction l with
  | nil => intro r i _; simp
  | cons p t ih =>
    intro r i ho
    obtain ⟨j, b⟩ := p
    have hb : b = o j := ho (j, b) (List.mem_cons_self _ _)
    rw [List.foldl_cons]
    rw [ih (r.set j (some b)) i (fun q hq => ho q (List.mem_cons_of_mem _ hq))]
    by_cases hij : i = j
    · subst hij
      rw [List.length_set]
      by_cases hmem : i ∈ t.map Prod.fst
      · simp [hmem]
      · rw [if_neg hmem, if_pos (by simp), List.get?_set_eq]
        by_cases hlt : i < r.length
        · rw [if_pos hlt]
          rw [List.get?_eq_get hlt]
          simp [hb]
        · rw [if_neg hlt, List.get?_eq_none.mpr (by omega)]
          simp
    · rw [List.get?_set_ne _ _ (fun hj => hij hj.symm), List.length_set]
      by_cases hmem : i ∈ t.map Prod.fst
      · simp [hmem]
      · rw [if_neg hmem, if_neg (by simp [hij, hmem])]

end IOJS

namespace IOJS

/-- C5 counterexample: `fork([])` never delivers: with no actions the
`forEach` launches nothing, `join`/`errjoin` never run, and the
condition `errUp + countUp === actions.length` is never even tested, so
the empty result array is never handed to success, although the claim
("for every list of n actions ... waits until all n branches have
reported and then delivers an array of length n") requires `[]` to be
delivered immediately for n = 0. -/
theorem fork_empty_no_delivery :
    (runFork 0 ([] : List (Nat × BranchRes Nat Nat))).delivered = none
    ∧ (runFork 0 ([] : List (Nat × BranchRes Nat Nat))).delivered ≠ some (.success []) :=
  ⟨rfl, by decide⟩

/-- C5 amended (restricted to n ≥ 1; `fork([])` never completes): for
every completion order of the n branches, nothing is delivered before
the last report; afterwards position i of the results array holds
branch i's result (success value or IOError); the array is delivered to
success as soon as the last branch reports — unless every branch
failed, in which case the IOError of the last-reporting branch is
delivered to failure. -/
theorem fork_join_collects (α ε : Type) (n : Nat) (hn : 1 ≤ n)
    (evs : List (Nat × BranchRes α ε)) (o : Nat → BranchRes α ε)
    (hperm : (evs.map Prod.fst).Perm (List.range n))
    (ho : ∀ p ∈ evs, p.2 = o p.1) :
    (∀ k, k < n → (runFork n (evs.take k)).delivered = none)
    ∧ (runFork n evs).results = (List.range n).map (fun i => some (o i))
    ∧ ((∃ i, i < n ∧ ∃ v, o i = .ok v) →
        (runFork n evs).delivered
          = some (.success ((List.range n).map (fun i => some (o i)))))
    ∧ ((∀ i v, i < n → o i ≠ .ok v) → ∀ j e, evs.getLast? = some (j, .errR e) →
        (runFork n evs).delivered = some (.failure e)) := by
  have hlen : evs.length = n := by
    have h := hperm.length_eq
    simpa using h
  have hcu0 : (forkInit n : ForkState α ε).countUp = 0 := rfl
  have heu0 : (forkInit n : ForkState α ε).errUp = 0 := rfl
  have part1 : ∀ k, k < n → (runFork n (evs.take k)).delivered = none := by
    intro k hk
    have htk : (evs.take k).length ≤ k := by
      rw [List.length_take]
      omega
    exact forkRun_no_delivery n (evs.take k) (forkInit n) rfl (by omega)
  have part2 : (runFork n evs).results = (List.range n).map (fun i => some (o i)) := by
    have h3 := (forkRun_counts n evs (forkInit n)).2.2
    refine List.ext_get?_iff.mpr fun i => ?_
    unfold runFork
    rw [h3, foldl_set_get? o evs _ i ho]
    simp only [forkInit, List.length_replicate]
    have hmem : i ∈ evs.map Prod.fst ↔ i < n := by
      rw [hperm.mem_iff, List.mem_range]
    by_cases hi : i < n
    · rw [if_pos (hmem.mpr hi), if_pos hi, List.get?_map, List.get?_range hi]
      rfl
    · rw [if_neg (fun hm => hi (hmem.mp hm)),
        List.get?_eq_none.mpr (by rw [List.length_replicate]; omega)]
      exact (List.get?_eq_none.mpr (by rw [List.length_map, List.length_range]; omega)).symm
  have hne : evs ≠ [] := by
    intro he
    rw [he] at hlen
    simp at hlen
    omega
  have hsplit := List.dropLast_append_getLast hne
  have hfrontlen : evs.dropLast.length = n - 1 := by
    rw [List.length_dropLast, hlen]
  have hfold : runFork n evs
      = forkStep n (evs.dropLast.foldl (forkStep n) (forkInit n)) (evs.getLast hne) := by
    conv_lhs => rw [runFork, ← hsplit]
    rw [List.foldl_append, List.foldl_cons, List.foldl_nil]
  have hSc := forkRun_counts n evs.dropLast (forkInit n : ForkState α ε)
  have hSsum : (evs.dropLast.foldl (forkStep n) (forkInit n)).countUp
      + (evs.dropLast.foldl (forkStep n) (forkInit n)).errUp = n - 1 := by
    have h := hSc.1
    omega
  have hScount : (evs.dropLast.foldl (forkStep n) (forkInit n)).countUp
      = (evs.dropLast.filter isOkEv).length := by
    have h := hSc.2.1
    omega
  have hSres : (runFork n evs).results
      = (evs.dropLast.foldl (forkStep n) (forkInit n)).results.set
          (evs.getLast hne).1 (some (evs.getLast hne).2) := by
    rw [hfold]
    exact (forkStep_counts n _ _).2.2
  have hsetmap : (evs.dropLast.foldl (forkStep n) (forkInit n)).results.set
      (evs.getLast hne).1 (some (evs.getLast hne).2)
      = (List.range n).map (fun i => some (o i)) := hSres.symm.trans part2
  refine ⟨part1, part2, ?_, ?_⟩
  · rintro ⟨i, hi, v, hoi⟩
    rcases hlst : evs.getLast hne with ⟨j, b⟩
    rw [hlst] at hfold hsetmap
    cases b with
    | ok w =>
      rw [hfold]
      dsimp only [forkStep]
      rw [if_pos (by omega)]
      rw [hsetmap]
    | errR e2 =>
      have hcpos : 0 < (evs.dropLast.foldl (forkStep n) (forkInit n)).countUp := by
        have himem : i ∈ evs.map Prod.fst := hperm.mem_iff.mpr (List.mem_range.mpr hi)
        obtain ⟨p, hp, hpi⟩ := List.mem_map.mp himem
        have hpo : p.2 = BranchRes.ok v := by rw [ho p hp, hpi, hoi]
        have hpfront : p ∈ evs.dropLast := by
          have hpe : p ∈ evs.dropLast ++ [evs.getLast hne] := by rw [hsplit]; exact hp
          rcases List.mem_append.mp hpe with h | h
          · exact h
          · exfalso
            have : p = evs.getLast hne := by simpa using h
            rw [this, hlst] at hpo
            cases hpo
        have hmemfil : p ∈ evs.dropLast.filter isOkEv := by
          refine List.mem_filter.mpr ⟨hpfront, ?_⟩
          rcases p with ⟨pi, pb⟩
          simp only at hpo
          rw [hpo]
          rfl
        have := List.length_pos.mpr (List.ne_nil_of_mem hmemfil)
        omega
      rw [hfold]
      dsimp only [forkStep]
      rw [if_pos (by omega), if_neg (by omega)]
      rw [hsetmap]
  · intro hall j e hlast
    have hlst0 := List.getLast?_eq_getLast_of_ne_nil hne
    rw [hlast] at hlst0
    have hlst : evs.getLast hne = (j, .errR e) := (Option.some.inj hlst0).symm
    rw [hlst] at hfold
    have hc0 : (evs.dropLast.foldl (forkStep n) (forkInit n)).countUp = 0 := by
      rw [hScount]
      by_contra hpos
      have hfne : evs.dropLast.filter isOkEv ≠ [] := by
        intro hnil
        rw [hnil] at hpos
        exact hpos rfl
      obtain ⟨p, hp⟩ := List.exists_mem_of_ne_nil _ hfne
      obtain ⟨hpfront, hpok⟩ := List.mem_filter.mp hp
      have hpe : p ∈ evs := by
        rw [← hsplit]
        exact List.mem_append.mpr (Or.inl hpfront)
      rcases p with ⟨pi, pb⟩
      cases pb with
      | ok v =>
        have hpi : pi < n := by
          have : pi ∈ evs.map Prod.fst := List.mem_map.mpr ⟨(pi, .ok v), hpe, rfl⟩
          exact List.mem_range.mp (hperm.mem_iff.mp this)
        exact hall pi v hpi ((ho (pi, .ok v) hpe).symm)
      | errR e2 => cases hpok
    rw [hfold]
    dsimp only [forkStep]
    rw [if_pos (by omega), if_pos hc0]

/-- Witness for the amended fork theorem: two branches, branch 1
failing first and branch 0 succeeding last, in reverse index order. -/
theorem fork_join_collects_witness :
    ((1 : Nat) ≤ 2
      ∧ (([(1, BranchRes.errR 5), (0, BranchRes.ok 3)].map Prod.fst).Perm (List.range 2)))
    ∧ (runFork 2 [(1, BranchRes.errR (5 : Nat)), (0, BranchRes.ok (3 : Nat))]).delivered
        = some (.success ((List.range 2).map
            (fun i => some (if i = 0 then BranchRes.ok 3 else BranchRes.errR 5)))) := by
  have h := fork_join_collects Nat Nat 2 (by decide)
    [(1, BranchRes.errR 5), (0, BranchRes.ok 3)]
    (fun i => if i = 0 then BranchRes.ok 3 else BranchRes.errR 5)
    (by decide) (by decide)
  exact ⟨⟨by decide, by decide⟩, h.2.2.1 ⟨0, by decide, 3, rfl⟩⟩

end IOJS
